import Mathlib

/-!
Verification of the phase-retrieval core of the `shg_frog` package
(`src/shg_frog/model/phase_retrieval.py`).

The code manipulates complex N-vectors (pulse fields) and complex N x N
matrices (FROG field traces) through numpy FFTs, cyclic rolls, flips and
masks.  We embed it shallowly:

* numpy arrays of length `N` become functions `ZMod N → ℂ` (cyclic index
  arithmetic is exactly `np.roll` arithmetic), 2-D arrays become
  `Matrix (ZMod N) (ZMod N) _`;
* `np.fft.fft` is `ZMod.dft` from Mathlib, whose defining formula
  `𝓕 Φ k = ∑ j, exp (-2πI·j·k/N) * Φ j` is numpy's forward-transform
  convention, and `np.fft.ifft` is its `LinearEquiv.symm`, which carries
  the `1/N` normalisation of numpy's inverse transform;
* floating point numbers are modelled by exact reals; `x / 0 = 0` is the
  junk value standing in for numpy's NaN/inf results;
* Python behaviour that depends on the int/float distinction (`range`
  applied to the result of `np.floor`) is modelled with a small
  `PyNum`/`PyErr` value model, and functions that can raise or fall off
  the end return a `PyRet` value.
-/

open Finset Complex

namespace Frog

noncomputable section

/-! ### Generic numpy array operations -/

/-- Banker's rounding (round half to even), the convention of both Python's
built-in `round` and `np.round`, which the source uses for recentring and
rebinning indices. -/
def npRound (x : ℝ) : ℤ :=
  if Int.fract x < 1/2 then ⌊x⌋
  else if 1/2 < Int.fract x then ⌊x⌋ + 1
  else if 2 ∣ ⌊x⌋ then ⌊x⌋ else ⌊x⌋ + 1

variable {M N : ℕ} [NeZero M] [NeZero N]

/-- `np.roll(x, m)` for a 1-D array: `out[i] = x[(i - m) mod N]`. -/
def npRoll (x : ZMod N → ℂ) (m : ℤ) : ZMod N → ℂ :=
  fun i => x (i - (m : ZMod N))

/-- `np.roll(A, m, axis=0)`. -/
def rollRows {α : Type} (A : Matrix (ZMod M) (ZMod N) α) (m : ℤ) :
    Matrix (ZMod M) (ZMod N) α :=
  fun i j => A (i - (m : ZMod M)) j

/-- `np.roll(A, m, axis=1)`. -/
def rollCols {α : Type} (A : Matrix (ZMod M) (ZMod N) α) (m : ℤ) :
    Matrix (ZMod M) (ZMod N) α :=
  fun i j => A i (j - (m : ZMod N))

/-- `np.fliplr(A)`: reverse each row, `out[i,j] = A[i, N-1-j]`;
in `ZMod N` the index `N-1-j` is `-1-j`. -/
def fliplr {α : Type} (A : Matrix (ZMod M) (ZMod N) α) :
    Matrix (ZMod M) (ZMod N) α :=
  fun i j => A i (-1 - j)

/-- `np.flipud(A)`: reverse each column, `out[i,j] = A[M-1-i, j]`. -/
def flipud {α : Type} (A : Matrix (ZMod M) (ZMod N) α) :
    Matrix (ZMod M) (ZMod N) α :=
  fun i j => A (-1 - i) j

/-- The row-rotation loop `for n in range(N): EF[n,:] = np.roll(EF[n,:], -n)`
of `makeFROG`: row `i` is rolled left by `i`. -/
def rowRollNeg {α : Type} (A : Matrix (ZMod N) (ZMod N) α) :
    Matrix (ZMod N) (ZMod N) α :=
  fun i j => A i (j + i)

/-- The inverse row-rotation loop `for n in range(N): EF[n,:] = np.roll(EF[n,:], n)`
of `guessPulse`: row `i` is rolled right by `i`. -/
def rowRollPos {α : Type} (A : Matrix (ZMod N) (ZMod N) α) :
    Matrix (ZMod N) (ZMod N) α :=
  fun i j => A i (j - i)

/-- `np.tril(A, k)`: keep the entries on and below the `k`-th diagonal
(those with `j - i ≤ k`), zero elsewhere.  Offsets are linear (not cyclic)
index differences, hence the `val` arithmetic. -/
def npTril {α : Type} [Zero α] (A : Matrix (ZMod M) (ZMod N) α) (k : ℤ) :
    Matrix (ZMod M) (ZMod N) α :=
  fun i j => if (j.val : ℤ) ≤ (i.val : ℤ) + k then A i j else 0

/-- `np.triu(A, k)`: keep the entries on and above the `k`-th diagonal
(those with `j - i ≥ k`), zero elsewhere. -/
def npTriu {α : Type} [Zero α] (A : Matrix (ZMod M) (ZMod N) α) (k : ℤ) :
    Matrix (ZMod M) (ZMod N) α :=
  fun i j => if (i.val : ℤ) + k ≤ (j.val : ℤ) then A i j else 0

/-- `np.outer(x, y)`. -/
def npOuter (x y : ZMod N → ℂ) : Matrix (ZMod N) (ZMod N) ℂ :=
  fun i j => x i * y j

/-- `np.fft.fft(x)`: Mathlib's discrete Fourier transform on `ZMod N`,
whose formula `∑ j, exp (-2*π*I*j*k/N) * x j` is numpy's convention. -/
def npfft (x : ZMod N → ℂ) : ZMod N → ℂ := ZMod.dft x

/-- `np.fft.ifft(x)`: the inverse DFT, `(1/N) * ∑ j, exp (2*π*I*j*k/N) * x j`. -/
def npifft (x : ZMod N → ℂ) : ZMod N → ℂ := ZMod.dft.symm x

/-- `np.fft.fft(A, axis=0)`: transform each column. -/
def fftCols (A : Matrix (ZMod M) (ZMod N) ℂ) : Matrix (ZMod M) (ZMod N) ℂ :=
  fun k j => npfft (fun n => A n j) k

/-- `np.fft.ifft(A, axis=0)`: inverse-transform each column. -/
def ifftCols (A : Matrix (ZMod M) (ZMod N) ℂ) : Matrix (ZMod M) (ZMod N) ℂ :=
  fun k j => npifft (fun n => A n j) k

/-- `np.fft.fft(A, axis=1)`: transform each row. -/
def fftRows (A : Matrix (ZMod M) (ZMod N) ℂ) : Matrix (ZMod M) (ZMod N) ℂ :=
  fun i l => npfft (fun n => A i n) l

/-- `np.fft.ifft(A, axis=1)`: inverse-transform each row. -/
def ifftRows (A : Matrix (ZMod M) (ZMod N) ℂ) : Matrix (ZMod M) (ZMod N) ℂ :=
  fun i l => npifft (fun n => A i n) l

/-- `np.fft.fft2`: 2-D transform, the 1-D transform along both axes. -/
def fft2 (A : Matrix (ZMod M) (ZMod N) ℂ) : Matrix (ZMod M) (ZMod N) ℂ :=
  fftCols (fftRows A)

/-- `np.fft.ifft2`. -/
def ifft2 (A : Matrix (ZMod M) (ZMod N) ℂ) : Matrix (ZMod M) (ZMod N) ℂ :=
  ifftCols (ifftRows A)

/-- `np.fft.fftshift(A, 1)`: roll axis 1 by `N // 2`. -/
def fftshiftCols (A : Matrix (ZMod M) (ZMod N) ℂ) : Matrix (ZMod M) (ZMod N) ℂ :=
  rollCols A (N / 2 : ℕ)

/-- `np.fft.ifftshift(A, 1)`: roll axis 1 by `-(N // 2)`. -/
def ifftshiftCols (A : Matrix (ZMod M) (ZMod N) ℂ) : Matrix (ZMod M) (ZMod N) ℂ :=
  rollCols A (-((N / 2 : ℕ) : ℤ))

/-- `np.fft.fftshift(A)` on both axes. -/
def fftshift2 (A : Matrix (ZMod M) (ZMod N) ℂ) : Matrix (ZMod M) (ZMod N) ℂ :=
  rollRows (rollCols A (N / 2 : ℕ)) (M / 2 : ℕ)

/-- `np.fft.ifftshift(A)` on both axes. -/
def ifftshift2 (A : Matrix (ZMod M) (ZMod N) ℂ) : Matrix (ZMod M) (ZMod N) ℂ :=
  rollRows (rollCols A (-((N / 2 : ℕ) : ℤ))) (-((M / 2 : ℕ) : ℤ))

/-- `np.linalg.norm(v)`: the Euclidean norm. -/
def npnorm (v : ZMod N → ℂ) : ℝ :=
  Real.sqrt (∑ i, Complex.abs (v i) ^ 2)

/-- `v / np.linalg.norm(v)`: normalise to unit Euclidean norm.
For `v = 0` this divides by zero, the real-number model of numpy's NaN. -/
def normalizeVec (v : ZMod N → ℂ) : ZMod N → ℂ :=
  fun i => v i / (npnorm v : ℝ)

/-! ### Module-level helpers (lines 43-60 of the source) -/

/-- `rms_diff(F1, F2) = np.sqrt(np.mean(np.square(F1-F2)))`. -/
def rms_diff (F1 F2 : Matrix (ZMod M) (ZMod N) ℝ) : ℝ :=
  Real.sqrt ((∑ i, ∑ j, (F1 i j - F2 i j) ^ 2) / (M * N))

/-- `np.amax(A)`: the largest entry. -/
def npamax (A : Matrix (ZMod M) (ZMod N) ℝ) : ℝ :=
  (univ ×ˢ univ).sup' (⟨(0, 0), by simp⟩ : (univ ×ˢ univ : Finset (ZMod M × ZMod N)).Nonempty)
    (fun p => A p.1 p.2)

/-- `np.amin(A)`: the smallest entry. -/
def npamin (A : Matrix (ZMod M) (ZMod N) ℝ) : ℝ :=
  (univ ×ˢ univ).inf' (⟨(0, 0), by simp⟩ : (univ ×ˢ univ : Finset (ZMod M × ZMod N)).Nonempty)
    (fun p => A p.1 p.2)

/-- `normalize_max_one(arr) = arr / np.amax(arr)`: no all-zero guard is
present in the source; for the zero matrix this divides `0 / 0`. -/
def normalize_max_one (A : Matrix (ZMod M) (ZMod N) ℝ) : Matrix (ZMod M) (ZMod N) ℝ :=
  fun i j => A i j / npamax A

/-- `calc_alpha(Fm, Fr) = np.sum(Fm*Fr) / np.sum(np.square(Fr))`. -/
def calc_alpha (Fm Fr : Matrix (ZMod M) (ZMod N) ℝ) : ℝ :=
  (∑ i, ∑ j, Fm i j * Fr i j) / (∑ i, ∑ j, (Fr i j) ^ 2)

/-! ### makeFROG (lines 435-541) -/

/-- `int(np.ceil(N/2.))` for a natural `N`. -/
def ceilHalf (N : ℕ) : ℤ := ((N + 1) / 2 : ℕ)

/-- The time-domain anti-alias mask (lines 465 and 578):
`EF - np.tril(EF, -np.ceil(N/2.)) - np.triu(EF, np.ceil(N/2.))`, deleting
outer-product entries whose implied delay wraps around. -/
def antialiasT (A : Matrix (ZMod N) (ZMod N) ℂ) : Matrix (ZMod N) (ZMod N) ℂ :=
  A - npTril A (-(ceilHalf N)) - npTriu A (ceilHalf N)

/-- The `domain == 0` branch of `makeFROG` (lines 451-483): outer product of
the field with itself, the optional time-domain anti-alias mask, the row
rotation of Kane1999, fftshift/fliplr column permutation, column FFT and
the final row roll placing zero frequency at row `ceil(N/2)-1`.  Returns
the trace `F = |EF|^2` and the complex field trace `EF`. -/
def makeFROGd0 (Pt : ZMod N → ℂ) (antialias : ℕ) :
    Matrix (ZMod N) (ZMod N) ℝ × Matrix (ZMod N) (ZMod N) ℂ :=
  let EF0 : Matrix (ZMod N) (ZMod N) ℂ := npOuter Pt Pt
  let EF1 := if antialias ≠ 0 then antialiasT EF0 else EF0
  let EF2 := rowRollNeg EF1
  let EF3 := fliplr (fftshiftCols EF2)
  let EF4 := rollRows (fftCols EF3) (ceilHalf N - 1)
  (fun i j => Complex.abs (EF4 i j) ^ 2, EF4)

/-- The frequency-domain anti-alias mask of `makeFROG` (lines 501-516):
with `vmax = N // 2` and `vmin = vmax + 1`, the loop
`for n in range(1, vmax+1): EF[n, vmax-(n-1):vmax+1] = 0` zeroes row `n`,
columns `vmax-n+1 .. vmax`, and
`for n in range(vmin, N): EF[n, vmin:vmin+(N-n)] = 0` zeroes row `n`,
columns `vmin .. vmin+N-n-1`. -/
def d1mask (A : Matrix (ZMod N) (ZMod N) ℂ) : Matrix (ZMod N) (ZMod N) ℂ :=
  fun i j =>
    if (1 ≤ i.val ∧ i.val ≤ N / 2 ∧ N / 2 + 1 ≤ i.val + j.val ∧ j.val ≤ N / 2) ∨
       (N / 2 + 1 ≤ i.val ∧ N / 2 + 1 ≤ j.val ∧ i.val + j.val < N / 2 + 1 + N)
    then 0 else A i j

/-- The `domain == 1` branch of `makeFROG` (lines 486-540): outer product of
the FFT of the field with itself, the optional frequency-domain anti-alias
mask, fliplr, the row rotation, column inverse FFT, flipud/fliplr, the two
rolls recentring zero frequency and zero delay, and a final transpose. -/
def makeFROGd1 (Pt : ZMod N → ℂ) (antialias : ℕ) :
    Matrix (ZMod N) (ZMod N) ℝ × Matrix (ZMod N) (ZMod N) ℂ :=
  let Q := npfft Pt
  let EF0 : Matrix (ZMod N) (ZMod N) ℂ := npOuter Q Q
  let EF1 := if antialias ≠ 0 then d1mask EF0 else EF0
  let EF2 := fliplr EF1
  let EF3 := rowRollNeg EF2
  let EF4 := ifftCols EF3
  let EF5 := flipud (fliplr EF4)
  let EF6 := rollRows EF5 (ceilHalf N)
  let EF7 := rollCols EF6 (ceilHalf N - 1)
  let EF8 := EF7.transpose
  (fun i j => Complex.abs (EF8 i j) ^ 2, EF8)

/-- A Python exception kind.  `typeError` models the `TypeError` raised by
`range` when it is handed a non-integer bound. -/
inductive PyErr where
  | typeError

/-- Result of a Python call: a returned value, an implicit `None` return
(falling off the end of the function), or a raised exception. -/
inductive PyRet (α : Type) where
  | val (a : α)
  | none
  | exn (e : PyErr)

/-- `makeFROG(Pt, domain, antialias)` (lines 435-541): dispatches on the
domain selector; any selector other than 0 or 1 falls off the end of the
function and returns `None`. -/
def makeFROG (Pt : ZMod N → ℂ) (domain antialias : ℕ) :
    PyRet (Matrix (ZMod N) (ZMod N) ℝ × Matrix (ZMod N) (ZMod N) ℂ) :=
  if domain = 0 then .val (makeFROGd0 Pt antialias)
  else if domain = 1 then .val (makeFROGd1 Pt antialias)
  else .none

/-! ### guessPulse (lines 544-639) -/

/-- A Python numeric scalar, keeping track of the int/float distinction
that Python 3's `range` enforces. -/
inductive PyNum where
  | int (n : ℤ)
  | float (x : ℝ)

/-- `np.floor` returns a float64, never an int. -/
def npFloorF (x : ℝ) : PyNum := .float (⌊x⌋ : ℤ)

/-- Python numeric addition: any operand being a float makes the result a
float. -/
def PyNum.add : PyNum → PyNum → PyNum
  | .int a, .int b => .int (a + b)
  | .int a, .float b => .float (a + b)
  | .float a, .int b => .float (a + b)
  | .float a, .float b => .float (a + b)

/-- Python 3's `range(a, b)`: yields the integers `a, a+1, ..., b-1`, but
raises `TypeError` if the bound is not an integer (floats, including
integral-valued `numpy.float64`, are rejected). -/
def pyRange (a : ℤ) : PyNum → PyRet (List ℤ)
  | .int b => .val ((List.range (b - a).toNat).map (fun k => a + k))
  | .float _ => .exn .typeError

/-- The `domain == 0` branch of `guessPulse` (lines 560-591): the exact
inverse of the `makeFROG` domain-0 operation sequence, recovering the
outer-product-form matrix, then the optional anti-alias mask, then one
power-method step `EF @ (EF^H @ lastPt)` (or the leading left singular
vector `svdU EF` — `np.linalg.svd` is an external LAPACK routine, which the
embedding abstracts as a parameter), normalised to unit Euclidean norm. -/
def guessPulseD0 (EF : Matrix (ZMod N) (ZMod N) ℂ) (lastPt : ZMod N → ℂ)
    (antialias PowerOrSVD : ℕ)
    (svdU : Matrix (ZMod N) (ZMod N) ℂ → ZMod N → ℂ) : ZMod N → ℂ :=
  let EFa := ifftCols (rollRows EF (-(ceilHalf N - 1)))
  let EFb := ifftshiftCols (fliplr EFa)
  let EFc := rowRollPos EFb
  let EFd := if antialias ≠ 0 then antialiasT EFc else EFc
  let Pt := if PowerOrSVD = 0 then EFd.mulVec (EFd.conjTranspose.mulVec lastPt)
    else svdU EFd
  normalizeVec Pt

/-- The inverse operation sequence of the `domain == 1` branch of
`guessPulse` (lines 597-614): transpose, the two rolls, flipud/fliplr,
column FFT, the row rotation, and fliplr, recovering the outer product of
the field's FFT with itself. -/
def guessPulseD1pre (EF : Matrix (ZMod N) (ZMod N) ℂ) :
    Matrix (ZMod N) (ZMod N) ℂ :=
  let EF1 := EF.transpose
  let EF2 := rollCols EF1 (-(ceilHalf N - 1))
  let EF3 := rollRows EF2 (-(ceilHalf N))
  let EF4 := flipud (fliplr EF3)
  let EF5 := fftCols EF4
  let EF6 := rowRollPos EF5
  fliplr EF6

/-- The frequency-domain anti-alias mask as written in `guessPulse`
(lines 620-625); unlike the `makeFROG` version its first loop starts at
`n = 2`.  Dead code in practice: the loop bound is a float and `range`
raises before the loops run. -/
def d1maskGuess (A : Matrix (ZMod N) (ZMod N) ℂ) : Matrix (ZMod N) (ZMod N) ℂ :=
  fun i j =>
    if (2 ≤ i.val ∧ i.val ≤ N / 2 ∧ N / 2 + 1 ≤ i.val + j.val ∧ j.val ≤ N / 2) ∨
       (N / 2 + 1 ≤ i.val ∧ N / 2 + 1 ≤ j.val ∧ i.val + j.val < N / 2 + 1 + N)
    then 0 else A i j

/-- The estimation step of the `domain == 1` branch (lines 628-639): power
method `ifft(EF @ (EF^H @ fft(lastPt)))` or singular-vector method
`ifft(U[:,0])`, normalised to unit Euclidean norm. -/
def guessPulseD1finish (EF : Matrix (ZMod N) (ZMod N) ℂ) (lastPt : ZMod N → ℂ)
    (PowerOrSVD : ℕ)
    (svdU : Matrix (ZMod N) (ZMod N) ℂ → ZMod N → ℂ) : ZMod N → ℂ :=
  let Pt := if PowerOrSVD = 0 then
      npifft (EF.mulVec (EF.conjTranspose.mulVec (npfft lastPt)))
    else npifft (svdU EF)
  normalizeVec Pt

/-- `guessPulse(EF, lastPt, domain, antialias, PowerOrSVD)` (lines 544-639).
In the `domain == 1, antialias` branch the loop bound
`vmax = np.floor(N/2.)` is a float and is passed to `range` without
integer conversion, so that branch raises `TypeError`; a domain selector
other than 0 or 1 falls off the end and returns `None`. -/
def guessPulse (svdU : Matrix (ZMod N) (ZMod N) ℂ → ZMod N → ℂ)
    (EF : Matrix (ZMod N) (ZMod N) ℂ) (lastPt : ZMod N → ℂ)
    (domain antialias PowerOrSVD : ℕ) : PyRet (ZMod N → ℂ) :=
  if domain = 0 then .val (guessPulseD0 EF lastPt antialias PowerOrSVD svdU)
  else if domain = 1 then
    if antialias ≠ 0 then
      match pyRange 2 ((npFloorF ((N : ℝ) / 2)).add (.int 1)) with
      | .exn e => .exn e
      | _ => .val (guessPulseD1finish (d1maskGuess (guessPulseD1pre EF)) lastPt PowerOrSVD svdU)
    else .val (guessPulseD1finish (guessPulseD1pre EF) lastPt PowerOrSVD svdU)
  else .none

/-! ### retrievePhase (lines 644-872)

The solver runs with the method selectors of the constructor default
`self.method = [0,0,0,0]` (domain 0, no anti-aliasing, for both
`makeFROG` and `guessPulse`); nothing in the repository ever assigns to
`method`.  Plot/GUI emission is state-free and omitted. -/

/-- The mutable state of the `retrievePhase` iteration loop. -/
structure GPState (N : ℕ) where
  Pt : ZMod N → ℂ
  Fr : Matrix (ZMod N) (ZMod N) ℝ
  EFr : Matrix (ZMod N) (ZMod N) ℂ
  G : ℝ
  iter : ℕ

/-- Lines 732-736: the state just before the iteration loop, built from the
(already normalised) trace `Fm` and the seed field: `Fr, EFr = makeFROG(Pt)`,
`Fr = Fr * calc_alpha(Fm, Fr)`, `G = rms_diff(Fm, Fr)`. -/
def initGPState (Fm : Matrix (ZMod N) (ZMod N) ℝ) (seed : ZMod N → ℂ) :
    GPState N :=
  let F := (makeFROGd0 seed 0).1
  let EF := (makeFROGd0 seed 0).2
  let Fr := calc_alpha Fm F • F
  { Pt := seed, Fr := Fr, EFr := EF, G := rms_diff Fm Fr, iter := 0 }

/-- Lines 795-800, the data-consistency update:
`EFr = EFr * np.sqrt(np.divide(Fm, Fr, out=zeros, where=Fr!=0))`. -/
def projectData (Fm Fr : Matrix (ZMod N) (ZMod N) ℝ)
    (EFr : Matrix (ZMod N) (ZMod N) ℂ) : Matrix (ZMod N) (ZMod N) ℂ :=
  fun i j => EFr i j * (Real.sqrt (if Fr i j = 0 then 0 else Fm i j / Fr i j) : ℝ)

/-- Lines 806-814, the recentring step: roll `Pt` so that its
`|Pt|^4`-weighted centroid (with 1-based index weights) sits at `N/2`. -/
def recenter (Pt : ZMod N → ℂ) : ZMod N → ℂ :=
  let w : ZMod N → ℝ := fun i => Complex.abs (Pt i ^ 4)
  let centerindex : ℝ := (∑ i, ((i.val : ℝ) + 1) * w i) / ∑ i, w i
  npRoll Pt (-(npRound (centerindex - N / 2)))

/-- One pass of the iteration loop body (lines 782-824): data-consistency
projection, field re-estimation with `guessPulse` (domain 0, no
anti-aliasing, power method), recentring, a fresh `makeFROG`, rescaling by
`calc_alpha`, and the new error. -/
def gpStep (Fm : Matrix (ZMod N) (ZMod N) ℝ) (st : GPState N) : GPState N :=
  let EFr1 := projectData Fm st.Fr st.EFr
  let Pt1 := guessPulseD0 EFr1 st.Pt 0 0 (fun _ _ => 0)
  let Pt2 := recenter Pt1
  let F := (makeFROGd0 Pt2 0).1
  let EF := (makeFROGd0 Pt2 0).2
  let Fr := calc_alpha Fm F • F
  { Pt := Pt2, Fr := Fr, EFr := EF, G := rms_diff Fm Fr, iter := st.iter + 1 }

/-- The `while G > GTol and iteration < max_iter` loop, with explicit fuel.
Fuel `maxIter` is enough: each pass increments `iter`, and once
`iter = maxIter` the condition is false, so the fuelled loop computes the
same state as the unbounded while loop. -/
def gpLoop (Fm : Matrix (ZMod N) (ZMod N) ℝ) (GTol : ℝ) (maxIter : ℕ) :
    ℕ → GPState N → GPState N
  | 0, st => st
  | fuel + 1, st =>
    if GTol < st.G ∧ st.iter < maxIter then gpLoop Fm GTol maxIter fuel (gpStep Fm st)
    else st

/-- `retrievePhase(Fm)` with an explicitly supplied seed: normalise the
trace to unit peak (line 717), build the initial state, run the loop. -/
def retrievePhase (Fm : Matrix (ZMod N) (ZMod N) ℝ) (seed : ZMod N → ℂ)
    (GTol : ℝ) (maxIter : ℕ) : GPState N :=
  gpLoop (normalize_max_one Fm) GTol maxIter maxIter
    (initGPState (normalize_max_one Fm) seed)

/-- Terminal status of a solver run. -/
inductive GPStatus where
  | converged
  | maxIterReached

/-- Modelled from the spec: the source loop does not reify a status; per the
spec's GPSolver state machine, exiting with `G ≤ tolerance` is CONVERGED
and exiting at the iteration cap with `G` still above tolerance is
MAX_ITER_REACHED. -/
def gpStatus (st : GPState N) (GTol : ℝ) : GPStatus :=
  if st.G ≤ GTol then .converged else .maxIterReached

/-- The reconstructed trace as computed inside the loop: the first
component of `makeFROG` with the solver's configured method (domain 0,
no anti-aliasing). -/
def frogTraceD0 (Pt : ZMod N → ℂ) : Matrix (ZMod N) (ZMod N) ℝ :=
  (makeFROGd0 Pt 0).1

/-- The FROG error of a candidate field against a prepared trace, as the
loop computes it (lines 819-822): `rms_diff(Fm, calc_alpha(Fm,Fr) * Fr)`. -/
def frogErrD0 (Fm : Matrix (ZMod N) (ZMod N) ℝ) (Pt : ZMod N → ℂ) : ℝ :=
  rms_diff Fm (calc_alpha Fm (frogTraceD0 Pt) • frogTraceD0 Pt)

/-- The alpha-rescaled reconstructed trace `Fr` that the loop state carries
into the next iteration (lines 732-735 and 817-821), for current field
`Pt`. -/
def loopFr (Fm : Matrix (ZMod N) (ZMod N) ℝ) (Pt : ZMod N → ℂ) :
    Matrix (ZMod N) (ZMod N) ℝ :=
  calc_alpha Fm (frogTraceD0 Pt) • frogTraceD0 Pt

/-! ### prepFROG (lines 224-428) -/

variable {v t : ℕ} [NeZero v] [NeZero t]

/-- The top-hat low-pass filter mask (lines 329-338): 1 inside the centred
disk of radius `max(v,t) * 0.3` (measured with 1-based indices against the
image centre `(v/2, t/2)`), 0 outside. -/
def tophatfilter (v t : ℕ) [NeZero v] [NeZero t] : Matrix (ZMod v) (ZMod t) ℝ :=
  fun i j =>
    if Real.sqrt (((i.val : ℝ) + 1 - v / 2) ^ 2 + ((j.val : ℝ) + 1 - t / 2) ^ 2)
        < (max v t : ℝ) * (3 / 10)
    then 1 else 0

/-- Lines 331-341, the low-pass Fourier filtering:
`abs(ifft2(ifftshift(tophatfilter * fftshift(fft2(img)))))`. -/
def lowpassFilter (A : Matrix (ZMod v) (ZMod t) ℝ) : Matrix (ZMod v) (ZMod t) ℝ :=
  let Afft := fftshift2 (fft2 (fun i j => (A i j : ℂ)))
  let filtered : Matrix (ZMod v) (ZMod t) ℂ :=
    fun i j => (tophatfilter v t i j : ℝ) * Afft i j
  fun i j => Complex.abs (ifft2 (ifftshift2 filtered) i j)

/-- Lines 350-360, the background subtraction: `imgblocks` accumulates the
64 cyclic shifts of the image by `(ii+1, jj+1)`, `ii, jj ∈ 0..7`; the
smallest entry over 64 is the background, which is subtracted and negative
results are clipped to zero. -/
def backgroundSubtract (A : Matrix (ZMod v) (ZMod t) ℝ) :
    Matrix (ZMod v) (ZMod t) ℝ :=
  let imgblocks : Matrix (ZMod v) (ZMod t) ℝ := fun i j =>
    ∑ ii ∈ Finset.range 8, ∑ jj ∈ Finset.range 8,
      A (i - ((ii + 1 : ℕ) : ZMod v)) (j - ((jj + 1 : ℕ) : ZMod t))
  let background := npamin imgblocks / (8 * 8)
  fun i j => max (A i j - background) 0

/-- The rebinning path of `prepFROG` (lines 375-394): centroid and
spot-size statistics from the unfiltered image and the resampling pitches
(lines 281-311, pure computations used only on this path), then each
source pixel of the filtered image is accumulated into the nearest target
bin (out-of-range pixels are skipped, bins with no contribution stay zero
via the count clamp), and the effective time-step becomes
`ccddt * tpxpersample`. -/
def prepRebin (Nsz : ℕ) [NeZero Nsz] (ccddt ccddv : ℝ)
    (img : Matrix (ZMod v) (ZMod t) ℝ) :
    Matrix (ZMod Nsz) (ZMod Nsz) ℝ × ℝ :=
  let colsums : ZMod t → ℝ := fun j => ∑ i, img i j
  let rowsums : ZMod v → ℝ := fun i => ∑ j, img i j
  let centercol : ℝ := (∑ j, ((j.val : ℝ) + 1) * colsums j) / ∑ j, colsums j
  let centerrow : ℝ := (∑ i, ((i.val : ℝ) + 1) * rowsums i) / ∑ i, rowsums i
  let spotwidth : ℝ :=
    2 * (∑ j, |((j.val : ℝ) + 1) - centercol| * colsums j) / ∑ j, colsums j
  let spotheight : ℝ :=
    2 * (∑ i, |((i.val : ℝ) + 1) - centerrow| * rowsums i) / ∑ i, rowsums i
  let aspect : ℝ := spotheight / spotwidth
  let vpxpersample : ℝ := Real.sqrt ((1 / (Nsz * (ccddt * ccddv))) * aspect)
  let tpxpersample : ℝ := Real.sqrt ((1 / (Nsz * (ccddt * ccddv))) / aspect)
  let filtered := backgroundSubtract (lowpassFilter img)
  let rowinfinal : ZMod v → ℤ := fun ii =>
    npRound ((Nsz : ℝ) / 2 + (((ii.val : ℝ) + 1) - centerrow) / vpxpersample) - 1
  let colinfinal : ZMod t → ℤ := fun jj =>
    npRound ((Nsz : ℝ) / 2 + (((jj.val : ℝ) + 1) - centercol) / tpxpersample) - 1
  let contributors : ZMod Nsz → ZMod Nsz → Finset (ZMod v × ZMod t) := fun r c =>
    (univ ×ˢ univ).filter
      (fun p => rowinfinal p.1 = (r.val : ℤ) ∧ colinfinal p.2 = (c.val : ℤ))
  (fun r c =>
      (∑ p ∈ contributors r c, filtered p.1 p.2) / (max (contributors r c).card 1 : ℕ),
    ccddt * tpxpersample)

/-- The body of `prepFROG` after orientation (lines 271-400): low-pass
filtering and background subtraction always run; then either the shortcut
branch (line 370: the image is already `N x N` and `ccddt * ccddv ==
1/N`), which keeps the filtered image and the input delay-step — it skips
only the rebinning — or the rebinning path.  Returns `(Fm, dtperpx)`. -/
def prepFROGcore (Nsz : ℕ) [NeZero Nsz] (ccddt ccddv : ℝ)
    (img : Matrix (ZMod v) (ZMod t) ℝ) :
    Matrix (ZMod Nsz) (ZMod Nsz) ℝ × ℝ :=
  if h : v = Nsz ∧ t = Nsz ∧ ccddt * ccddv = 1 / (Nsz : ℝ) then
    (fun i j => backgroundSubtract (lowpassFilter img)
        (cast (congrArg ZMod h.1.symm) i) (cast (congrArg ZMod h.2.1.symm) j),
      ccddt)
  else prepRebin Nsz ccddt ccddv img

/-- `prepFROG` (lines 224-400) for an explicitly supplied image and
calibration: the orientation flag transposes for `flip in (1,3)` and flips
vertically for `flip in (2,3)` (line 274-277), then the main body runs. -/
def prepFROG (Nsz : ℕ) [NeZero Nsz] (ccddt ccddv : ℝ)
    (img : Matrix (ZMod v) (ZMod t) ℝ) (flip : ℕ) :
    Matrix (ZMod Nsz) (ZMod Nsz) ℝ × ℝ :=
  if flip = 1 then prepFROGcore Nsz ccddt ccddv img.transpose
  else if flip = 3 then prepFROGcore Nsz ccddt ccddv (flipud img.transpose)
  else if flip = 2 then prepFROGcore Nsz ccddt ccddv (flipud img)
  else prepFROGcore Nsz ccddt ccddv img

/-! ### Concrete instances used in counterexamples and witnesses -/

/-- The length-2 field `(1, 2)`. -/
def cexPt2 : ZMod 2 → ℂ := fun i => if i = 0 then 1 else 2

/-- The field trace of `cexPt2` under `makeFROG` with domain 0 and
anti-aliasing enabled. -/
def cexEF2 : Matrix (ZMod 2) (ZMod 2) ℂ := (makeFROGd0 cexPt2 1).2

/-- The field that `guessPulse` (domain 0, anti-aliasing enabled, power
method) recovers from `cexEF2`. -/
def cexRes2 : ZMod 2 → ℂ := guessPulseD0 cexEF2 cexPt2 1 0 (fun _ _ => 0)

/-- A 1 x 1 measured trace with the single value 4. -/
def cexFm1 : Matrix (ZMod 1) (ZMod 1) ℝ := fun _ _ => 4

/-- A length-1 seed field with value 2. -/
def cexSeed1 : ZMod 1 → ℂ := fun _ => 2

/-- A 1 x 1 input image with the single value 5. -/
def ceximg1 : Matrix (ZMod 1) (ZMod 1) ℝ := fun _ _ => 5

/-- The all-zero 1 x 1 trace. -/
def zeroTrace : Matrix (ZMod 1) (ZMod 1) ℝ := fun _ _ => 0

/-- The all-ones 1 x 1 trace. -/
def onesTrace : Matrix (ZMod 1) (ZMod 1) ℝ := fun _ _ => 1

/-! ## Inversion lemmas for the index bookkeeping -/

lemma abs_stdAddChar (z : ZMod N) : Complex.abs (ZMod.stdAddChar z) = 1 := by
  rw [ZMod.stdAddChar_apply]; exact Circle.abs_coe _

lemma ifftCols_fftCols (A : Matrix (ZMod M) (ZMod N) ℂ) : ifftCols (fftCols A) = A := by
  funext i j
  show npifft (fun n => fftCols A n j) i = A i j
  have h : (fun n => fftCols A n j) = ZMod.dft (fun n => A n j) := rfl
  rw [h]
  exact congrFun (LinearEquiv.symm_apply_apply _ _) i

lemma fftCols_ifftCols (A : Matrix (ZMod M) (ZMod N) ℂ) : fftCols (ifftCols A) = A := by
  funext i j
  show npfft (fun n => ifftCols A n j) i = A i j
  have h : (fun n => ifftCols A n j) = ZMod.dft.symm (fun n => A n j) := rfl
  rw [h]
  exact congrFun (LinearEquiv.apply_symm_apply _ _) i

lemma rollRows_cancel {α : Type} (A : Matrix (ZMod M) (ZMod N) α) (m : ℤ) :
    rollRows (rollRows A m) (-m) = A := by
  funext i j
  simp only [rollRows]
  congr 1
  push_cast
  ring

lemma rollCols_cancel {α : Type} (A : Matrix (ZMod M) (ZMod N) α) (m : ℤ) :
    rollCols (rollCols A m) (-m) = A := by
  funext i j
  simp only [rollCols]
  congr 1
  push_cast
  ring

lemma fliplr_fliplr {α : Type} (A : Matrix (ZMod M) (ZMod N) α) :
    fliplr (fliplr A) = A := by
  funext i j
  simp only [fliplr]
  congr 1
  ring

lemma flipudlr_flipudlr {α : Type} (A : Matrix (ZMod M) (ZMod N) α) :
    flipud (fliplr (flipud (fliplr A))) = A := by
  funext i j
  simp only [flipud, fliplr]
  congr 1
  · ring
  · ring

lemma ifftshiftCols_fftshiftCols (A : Matrix (ZMod M) (ZMod N) ℂ) :
    ifftshiftCols (fftshiftCols A) = A := by
  simp only [ifftshiftCols, fftshiftCols]
  exact rollCols_cancel A _

lemma rowRollPos_rowRollNeg {α : Type} (A : Matrix (ZMod N) (ZMod N) α) :
    rowRollPos (rowRollNeg A) = A := by
  funext i j
  simp only [rowRollPos, rowRollNeg]
  congr 1
  ring

/-- The inverse sequence at the head of `guessPulse` (domain 0) undoes the
operation sequence at the tail of `makeFROG` (domain 0) exactly, whatever
the matrix they are applied to. -/
lemma guessPulseD0_recover (X : Matrix (ZMod N) (ZMod N) ℂ) :
    rowRollPos (ifftshiftCols (fliplr (ifftCols (rollRows
      (rollRows (fftCols (fliplr (fftshiftCols (rowRollNeg X)))) (ceilHalf N - 1))
      (-(ceilHalf N - 1)))))) = X := by
  rw [rollRows_cancel, ifftCols_fftCols, fliplr_fliplr, ifftshiftCols_fftshiftCols,
    rowRollPos_rowRollNeg]

lemma one_le_ceilHalf : 1 ≤ ceilHalf N := by
  have h := NeZero.pos N
  unfold ceilHalf
  omega

/-- Pointwise description of the time-domain anti-alias mask. -/
lemma antialiasT_apply (A : Matrix (ZMod N) (ZMod N) ℂ) (i j : ZMod N) :
    antialiasT A i j =
      if (j.val : ℤ) ≤ (i.val : ℤ) + -(ceilHalf N) ∨ (i.val : ℤ) + ceilHalf N ≤ (j.val : ℤ)
      then 0 else A i j := by
  have hc : 1 ≤ ceilHalf N := one_le_ceilHalf
  unfold antialiasT npTril npTriu
  simp only [Matrix.sub_apply]
  split_ifs <;> first | ring1 | (exfalso; omega)

lemma antialiasT_idem (A : Matrix (ZMod N) (ZMod N) ℂ) :
    antialiasT (antialiasT A) = antialiasT A := by
  funext i j
  simp only [antialiasT_apply]
  split_ifs <;> rfl

/-- Unfolding `makeFROG`'s domain-0 field trace as the forward operation
sequence applied to the (optionally masked) outer product. -/
lemma makeFROGd0_snd (Pt : ZMod N → ℂ) (a : ℕ) :
    (makeFROGd0 Pt a).2 = rollRows (fftCols (fliplr (fftshiftCols (rowRollNeg
      (if a ≠ 0 then antialiasT (npOuter Pt Pt) else npOuter Pt Pt))))) (ceilHalf N - 1) := rfl

lemma makeFROGd0_fst (Pt : ZMod N → ℂ) (a : ℕ) (i j : ZMod N) :
    (makeFROGd0 Pt a).1 i j = Complex.abs ((makeFROGd0 Pt a).2 i j) ^ 2 := rfl

/-- Applying the field estimator to the unmodified `makeFROG` output
recovers the (masked) outer-product matrix and performs one estimation
step on it. -/
lemma guessPulseD0_makeFROGd0 (Pt lastPt : ZMod N → ℂ) (a p : ℕ)
    (svdU : Matrix (ZMod N) (ZMod N) ℂ → ZMod N → ℂ) :
    guessPulseD0 (makeFROGd0 Pt a).2 lastPt a p svdU =
      normalizeVec (if p = 0 then
          (if a ≠ 0 then antialiasT (npOuter Pt Pt) else npOuter Pt Pt).mulVec
            ((if a ≠ 0 then antialiasT (npOuter Pt Pt) else npOuter Pt Pt).conjTranspose.mulVec
              lastPt)
        else svdU (if a ≠ 0 then antialiasT (npOuter Pt Pt) else npOuter Pt Pt)) := by
  show normalizeVec _ = _
  rw [makeFROGd0_snd, guessPulseD0_recover]
  by_cases ha : a ≠ 0
  · simp only [if_pos ha, antialiasT_idem]
  · simp only [if_neg ha]

/-! ## The power-method step on an exact outer product -/

lemma outer_power (Pt v : ZMod N → ℂ) :
    (npOuter Pt Pt).mulVec ((npOuter Pt Pt).conjTranspose.mulVec v)
      = fun i => (∑ k, ((Complex.normSq (Pt k) : ℝ) : ℂ)) * (∑ k, star (Pt k) * v k) * Pt i := by
  funext i
  have hw : ∀ j, (npOuter Pt Pt).conjTranspose.mulVec v j
      = star (Pt j) * ∑ k, star (Pt k) * v k := by
    intro j
    show ∑ k, star (npOuter Pt Pt k j) * v k = _
    rw [mul_sum]
    refine sum_congr rfl fun k _ => ?_
    show star (Pt k * Pt j) * v k = _
    rw [star_mul']
    ring
  show ∑ j, npOuter Pt Pt i j * ((npOuter Pt Pt).conjTranspose.mulVec v j) = _
  have hstep : ∀ j, npOuter Pt Pt i j * ((npOuter Pt Pt).conjTranspose.mulVec v j)
      = (Pt j * star (Pt j)) * ((∑ k, star (Pt k) * v k) * Pt i) := by
    intro j
    rw [hw j]
    show Pt i * Pt j * _ = _
    ring
  rw [sum_congr rfl fun j _ => hstep j, ← sum_mul]
  have hns : (∑ j, Pt j * star (Pt j)) = ∑ j, ((Complex.normSq (Pt j) : ℝ) : ℂ) := by
    refine sum_congr rfl fun j _ => ?_
    rw [← starRingEnd_apply]
    exact Complex.mul_conj _
  rw [hns]
  ring

lemma sum_star_mul_self (Pt : ZMod N → ℂ) :
    ∑ k, star (Pt k) * Pt k = ∑ k, ((Complex.normSq (Pt k) : ℝ) : ℂ) := by
  refine sum_congr rfl fun k _ => ?_
  rw [mul_comm, ← starRingEnd_apply]
  exact Complex.mul_conj _

lemma sum_normSq_pos (Pt : ZMod N → ℂ) (h : Pt ≠ 0) :
    0 < ∑ k, Complex.normSq (Pt k) := by
  obtain ⟨i, hi⟩ := Function.ne_iff.mp h
  exact sum_pos' (fun k _ => Complex.normSq_nonneg _)
    ⟨i, mem_univ i, Complex.normSq_pos.mpr hi⟩

lemma npnorm_smul_real (r : ℝ) (hr : 0 ≤ r) (v : ZMod N → ℂ) :
    npnorm (fun i => (r : ℂ) * v i) = r * npnorm v := by
  unfold npnorm
  have h : ∀ i, Complex.abs ((r : ℂ) * v i) ^ 2 = r ^ 2 * Complex.abs (v i) ^ 2 := by
    intro i
    rw [map_mul, Complex.abs_ofReal, abs_eq_self.mpr hr, mul_pow]
  rw [sum_congr rfl fun i _ => h i, ← mul_sum, Real.sqrt_mul (sq_nonneg r), Real.sqrt_sq hr]

lemma normalizeVec_smul (r : ℝ) (hr : 0 < r) (v : ZMod N → ℂ) :
    normalizeVec (fun i => (r : ℂ) * v i) = normalizeVec v := by
  funext i
  unfold normalizeVec
  rw [npnorm_smul_real r hr.le]
  push_cast
  rw [mul_div_mul_left _ _ (by exact_mod_cast hr.ne')]

lemma npnorm_pos (v : ZMod N → ℂ) (h : v ≠ 0) : 0 < npnorm v := by
  unfold npnorm
  obtain ⟨i, hi⟩ := Function.ne_iff.mp h
  exact Real.sqrt_pos.mpr (sum_pos' (fun k _ => sq_nonneg _)
    ⟨i, mem_univ i, pow_pos (Complex.abs.pos hi) 2⟩)

/-- Round trip in the delay domain without anti-aliasing: the power-method
estimate from the unmodified `makeFROG` output, with the previous field
equal to the true field, is exactly the normalised true field. -/
lemma roundtrip_d0 (Pt : ZMod N → ℂ) (h : Pt ≠ 0)
    (svdU : Matrix (ZMod N) (ZMod N) ℂ → ZMod N → ℂ) :
    guessPulseD0 (makeFROGd0 Pt 0).2 Pt 0 0 svdU = normalizeVec Pt := by
  rw [guessPulseD0_makeFROGd0]
  simp only [ne_eq, not_true_eq_false, if_false, if_true]
  rw [outer_power, sum_star_mul_self]
  set Tr : ℝ := ∑ k, Complex.normSq (Pt k) with hTr
  have hT : (∑ k, ((Complex.normSq (Pt k) : ℝ) : ℂ)) = ((Tr : ℝ) : ℂ) := by
    rw [hTr]
    push_cast
    rfl
  have hfun : (fun i => (∑ k, ((Complex.normSq (Pt k) : ℝ) : ℂ))
      * (∑ k, ((Complex.normSq (Pt k) : ℝ) : ℂ)) * Pt i)
      = fun i => ((Tr * Tr : ℝ) : ℂ) * Pt i := by
    funext i
    rw [hT]
    push_cast
    ring
  rw [hfun, normalizeVec_smul _ (mul_pos (sum_normSq_pos Pt h) (sum_normSq_pos Pt h))]

/-- Unfolding `makeFROG`'s domain-1 field trace. -/
lemma makeFROGd1_snd (Pt : ZMod N → ℂ) (a : ℕ) :
    (makeFROGd1 Pt a).2 = (rollCols (rollRows (flipud (fliplr (ifftCols (rowRollNeg (fliplr
      (if a ≠ 0 then d1mask (npOuter (npfft Pt) (npfft Pt))
       else npOuter (npfft Pt) (npfft Pt))))))) (ceilHalf N)) (ceilHalf N - 1)).transpose := rfl

/-- The inverse sequence of `guessPulse` (domain 1) undoes the forward
sequence of `makeFROG` (domain 1), recovering the (optionally masked)
outer product of the field's FFT with itself. -/
lemma guessPulseD1pre_makeFROGd1 (Pt : ZMod N → ℂ) (a : ℕ) :
    guessPulseD1pre (makeFROGd1 Pt a).2 =
      (if a ≠ 0 then d1mask (npOuter (npfft Pt) (npfft Pt))
       else npOuter (npfft Pt) (npfft Pt)) := by
  show fliplr (rowRollPos (fftCols (flipud (fliplr (rollRows
      (rollCols (makeFROGd1 Pt a).2.transpose (-(ceilHalf N - 1))) (-(ceilHalf N))))))) = _
  rw [makeFROGd1_snd, Matrix.transpose_transpose, rollCols_cancel, rollRows_cancel,
    flipudlr_flipudlr, fftCols_ifftCols, rowRollPos_rowRollNeg, fliplr_fliplr]

/-- Round trip in the frequency domain without anti-aliasing. -/
lemma roundtrip_d1 (Pt : ZMod N → ℂ) (h : Pt ≠ 0)
    (svdU : Matrix (ZMod N) (ZMod N) ℂ → ZMod N → ℂ) :
    guessPulseD1finish (npOuter (npfft Pt) (npfft Pt)) Pt 0 svdU = normalizeVec Pt := by
  have hQ : npfft Pt ≠ 0 := by
    intro h0
    apply h
    have h1 := congrArg (fun y => ZMod.dft.symm y) h0
    simpa [npfft] using h1
  show normalizeVec (npifft ((npOuter (npfft Pt) (npfft Pt)).mulVec
      ((npOuter (npfft Pt) (npfft Pt)).conjTranspose.mulVec (npfft Pt)))) = _
  rw [outer_power, sum_star_mul_self]
  set Tr : ℝ := ∑ k, Complex.normSq (npfft Pt k) with hTr
  have hT : (∑ k, ((Complex.normSq (npfft Pt k) : ℝ) : ℂ)) = ((Tr : ℝ) : ℂ) := by
    rw [hTr]
    push_cast
    rfl
  have hfun : (fun i => (∑ k, ((Complex.normSq (npfft Pt k) : ℝ) : ℂ))
      * (∑ k, ((Complex.normSq (npfft Pt k) : ℝ) : ℂ)) * npfft Pt i)
      = ((Tr * Tr : ℝ) : ℂ) • npfft Pt := by
    funext i
    rw [hT]
    show _ = ((Tr * Tr : ℝ) : ℂ) * npfft Pt i
    push_cast
    ring
  rw [hfun]
  have hifft : npifft (((Tr * Tr : ℝ) : ℂ) • npfft Pt) = fun i => ((Tr * Tr : ℝ) : ℂ) * Pt i := by
    unfold npifft npfft
    rw [map_smul, LinearEquiv.symm_apply_apply]
    rfl
  rw [hifft, normalizeVec_smul _ (mul_pos (sum_normSq_pos _ hQ) (sum_normSq_pos _ hQ))]

lemma zmodOneSum {α : Type} [AddCommMonoid α] (f : ZMod 1 → α) : ∑ i, f i = f 0 := by
  rw [show (univ : Finset (ZMod 1)) = {0} from by decide, sum_singleton]

lemma zmodTwoSum {α : Type} [AddCommMonoid α] (f : ZMod 2 → α) : ∑ i, f i = f 0 + f 1 := by
  rw [show (univ : Finset (ZMod 2)) = {0, 1} from by decide,
    sum_insert (by decide), sum_singleton]

/-! ## Claims -/

/-- C1 (amended): for every nonzero field `Pt`, with anti-aliasing
disabled, `guessPulse` (power method, previous field `Pt`) applied to the
unmodified field trace `EF` of `makeFROG Pt` returns a field equal to `Pt`
up to a global phase factor and normalisation to unit Euclidean norm, in
both domain conventions.  With anti-aliasing enabled the round trip fails
(see the counterexample). -/
theorem C1_roundtrip (N : ℕ) [NeZero N] (Pt : ZMod N → ℂ)
    (svdU : Matrix (ZMod N) (ZMod N) ℂ → ZMod N → ℂ) (h : Pt ≠ 0)
    (d : ℕ) (hd : d < 2) :
    ∃ F EF res, makeFROG Pt d 0 = .val (F, EF) ∧
      guessPulse svdU EF Pt d 0 0 = .val res ∧
      ∃ c : ℂ, Complex.abs c = 1 ∧ res = fun i => c * (Pt i / (npnorm Pt : ℝ)) := by
  interval_cases d
  · refine ⟨(makeFROGd0 Pt 0).1, (makeFROGd0 Pt 0).2, _, rfl, rfl, 1, map_one Complex.abs, ?_⟩
    rw [roundtrip_d0 Pt h svdU]
    funext i
    rw [one_mul]
    rfl
  · refine ⟨(makeFROGd1 Pt 0).1, (makeFROGd1 Pt 0).2,
      guessPulseD1finish (guessPulseD1pre (makeFROGd1 Pt 0).2) Pt 0 svdU,
      rfl, rfl, 1, map_one Complex.abs, ?_⟩
    rw [guessPulseD1pre_makeFROGd1]
    simp only [ne_eq, not_true_eq_false, if_false, if_true]
    rw [roundtrip_d1 Pt h svdU]
    funext i
    rw [one_mul]
    rfl

/-- Witness for C1 at `N = 1`, `Pt = (1)`, domain 0. -/
theorem C1_roundtrip_witness :
    ((fun _ : ZMod 1 => (1 : ℂ)) ≠ 0) ∧ (0 : ℕ) < 2 ∧
      (∃ F EF res, makeFROG (fun _ : ZMod 1 => (1 : ℂ)) 0 0 = .val (F, EF) ∧
        guessPulse (fun _ _ => 0) EF (fun _ : ZMod 1 => (1 : ℂ)) 0 0 0 = .val res ∧
        ∃ c : ℂ, Complex.abs c = 1 ∧
          res = fun i => c * ((fun _ : ZMod 1 => (1 : ℂ)) i
            / (npnorm (fun _ : ZMod 1 => (1 : ℂ)) : ℝ))) := by
  have hne : (fun _ : ZMod 1 => (1 : ℂ)) ≠ 0 := by
    intro h
    have h0 := congrFun h 0
    simp at h0
  exact ⟨hne, by norm_num, C1_roundtrip 1 (fun _ : ZMod 1 => (1 : ℂ)) (fun _ _ => 0) hne 0 (by norm_num)⟩

/-- Counterexample to C1 as stated: with anti-aliasing enabled (domain 0)
and the nonzero field `(1, 2)` of length 2, the recovered field is
proportional to `(1, 32)`, which is not a unit-phase multiple of the
normalised input field. -/
theorem C1_counterexample :
    makeFROG cexPt2 0 1 = .val ((makeFROGd0 cexPt2 1).1, cexEF2) ∧
    guessPulse (fun _ _ => 0) cexEF2 cexPt2 0 1 0 = .val cexRes2 ∧
    ¬ ∃ c : ℂ, Complex.abs c = 1 ∧
        cexRes2 = fun i => c * (cexPt2 i / (npnorm cexPt2 : ℝ)) := by
  refine ⟨rfl, rfl, ?_⟩
  have hB00 : antialiasT (npOuter cexPt2 cexPt2) 0 0 = 1 := by
    rw [antialiasT_apply, if_neg (by decide)]
    norm_num [npOuter, cexPt2]
  have hB01 : antialiasT (npOuter cexPt2 cexPt2) 0 1 = 0 := by
    rw [antialiasT_apply, if_pos (by decide)]
  have hB10 : antialiasT (npOuter cexPt2 cexPt2) 1 0 = 0 := by
    rw [antialiasT_apply, if_pos (by decide)]
  have hB11 : antialiasT (npOuter cexPt2 cexPt2) 1 1 = 4 := by
    rw [antialiasT_apply, if_neg (by decide)]
    norm_num [npOuter, cexPt2, show (1 : ZMod 2) ≠ 0 from by decide]
  set B := antialiasT (npOuter cexPt2 cexPt2) with hBdef
  have hwv : ∀ j, B.conjTranspose.mulVec cexPt2 j = ∑ k, star (B k j) * cexPt2 k := by
    intro j
    simp [Matrix.mulVec, Matrix.dotProduct, Matrix.conjTranspose_apply]
  have hw0 : B.conjTranspose.mulVec cexPt2 0 = 1 := by
    rw [hwv 0, zmodTwoSum (fun k => star (B k 0) * cexPt2 k), hB00, hB10]
    norm_num [cexPt2]
  have hw1 : B.conjTranspose.mulVec cexPt2 1 = 8 := by
    rw [hwv 1, zmodTwoSum (fun k => star (B k 1) * cexPt2 k), hB01, hB11]
    norm_num [cexPt2]
  set w := B.conjTranspose.mulVec cexPt2 with hwdef
  have huv : ∀ i, B.mulVec w i = ∑ k, B i k * w k := by
    intro i
    simp [Matrix.mulVec, Matrix.dotProduct]
  have hu0 : B.mulVec w 0 = 1 := by
    rw [huv 0, zmodTwoSum (fun k => B 0 k * w k), hB00, hB01, hw0]
    ring
  have hu1 : B.mulVec w 1 = 32 := by
    rw [huv 1, zmodTwoSum (fun k => B 1 k * w k), hB10, hB11, hw1]
    ring
  set u := B.mulVec w with hudef
  have hres : cexRes2 = normalizeVec u := by
    unfold cexRes2 cexEF2
    rw [guessPulseD0_makeFROGd0]
    rw [if_pos (one_ne_zero : (1 : ℕ) ≠ 0), if_pos rfl]
  have hune : u ≠ 0 := by
    intro h0
    have := congrFun h0 0
    rw [hu0] at this
    exact one_ne_zero this
  have hupos : 0 < npnorm u := npnorm_pos u hune
  rintro ⟨c, hc1, hc⟩
  rw [hres] at hc
  have h0 := congrFun hc 0
  have h1 := congrFun hc 1
  have hr0 : normalizeVec u 0 = 1 / (npnorm u : ℝ) := by
    unfold normalizeVec
    rw [hu0]
  have hr1 : normalizeVec u 1 = 32 / (npnorm u : ℝ) := by
    unfold normalizeVec
    rw [hu1]
  rw [hr0] at h0
  rw [hr1] at h1
  have hp0 : cexPt2 0 = 1 := by norm_num [cexPt2]
  have hp1 : cexPt2 1 = 2 := by norm_num [cexPt2]
  rw [hp0] at h0
  rw [hp1] at h1
  have hs : ((npnorm u : ℝ) : ℂ) ≠ 0 := Complex.ofReal_ne_zero.mpr hupos.ne'
  have key : (32 : ℂ) / (npnorm u : ℝ) = 2 * ((1 : ℂ) / (npnorm u : ℝ)) := by
    rw [h1, h0]
    ring
  rw [div_eq_iff hs, one_div, mul_assoc, inv_mul_cancel₀ hs, mul_one] at key
  norm_num at key

/-- C2 (confirmed): for every field `Pt`, every domain selector in `{0,1}`
and every anti-alias setting in `{0,1}`, `makeFROG` returns a pair
`(F, EF)` with `F[i,j] = |EF[i,j]|^2` at every entry. -/
theorem C2_trace_is_abs_sq (N : ℕ) [NeZero N] (Pt : ZMod N → ℂ)
    (d a : ℕ) (hd : d < 2) (ha : a < 2) :
    ∃ F EF, makeFROG Pt d a = .val (F, EF) ∧
      ∀ i j, F i j = Complex.abs (EF i j) ^ 2 := by
  interval_cases d
  · exact ⟨(makeFROGd0 Pt a).1, (makeFROGd0 Pt a).2, rfl, fun i j => rfl⟩
  · exact ⟨(makeFROGd1 Pt a).1, (makeFROGd1 Pt a).2, rfl, fun i j => rfl⟩

/-- Witness for C2 at `N = 1`, `Pt = (1)`, domain 0, anti-aliasing off. -/
theorem C2_trace_is_abs_sq_witness :
    (0 : ℕ) < 2 ∧
      ∃ F EF, makeFROG (fun _ : ZMod 1 => (1 : ℂ)) 0 0 = .val (F, EF) ∧
        ∀ i j, F i j = Complex.abs (EF i j) ^ 2 :=
  ⟨by norm_num, C2_trace_is_abs_sq 1 (fun _ => 1) 0 0 (by norm_num) (by norm_num)⟩

/-- C10 (confirmed): `guessPulse` with `domain = 1` and `antialias = 1`
always raises `TypeError` before producing a field, because the loop bound
`vmax = np.floor(N/2.)` is a float and is passed to `range` without
integer conversion. -/
theorem C10_guessPulse_d1_antialias_raises (N : ℕ) [NeZero N]
    (svdU : Matrix (ZMod N) (ZMod N) ℂ → ZMod N → ℂ)
    (EF : Matrix (ZMod N) (ZMod N) ℂ) (lastPt : ZMod N → ℂ) (p : ℕ) :
    guessPulse svdU EF lastPt 1 1 p = .exn .typeError := rfl

/-- Witness for C10 at `N = 1` on the zero matrix. -/
theorem C10_guessPulse_d1_antialias_raises_witness :
    guessPulse (fun _ _ => 0) (0 : Matrix (ZMod 1) (ZMod 1) ℂ)
      (fun _ : ZMod 1 => (1 : ℂ)) 1 1 0 = .exn .typeError :=
  C10_guessPulse_d1_antialias_raises 1 (fun _ _ => 0) 0 (fun _ => 1) 0

/-- C5 (confirmed): `calc_alpha` is the least-squares minimiser of
`a ↦ Σ (Fm - a*Fr)^2` whenever `Σ Fr^2 ≠ 0`, and `rms_diff F1 F2 = 0`
exactly when `F1 = F2`. -/
theorem C5_alpha_minimises_and_rms_iff (Mv Nv : ℕ) [NeZero Mv] [NeZero Nv]
    (Fm Fr F1 F2 : Matrix (ZMod Mv) (ZMod Nv) ℝ) :
    ((∑ i, ∑ j, (Fr i j) ^ 2) ≠ 0 →
      ∀ a : ℝ, ∑ i, ∑ j, (Fm i j - calc_alpha Fm Fr * Fr i j) ^ 2
        ≤ ∑ i, ∑ j, (Fm i j - a * Fr i j) ^ 2) ∧
    (rms_diff F1 F2 = 0 ↔ F1 = F2) := by
  have flat : ∀ f : ZMod Mv → ZMod Nv → ℝ,
      ∑ i, ∑ j, f i j = ∑ p : ZMod Mv × ZMod Nv, f p.1 p.2 := by
    intro f
    rw [Fintype.sum_prod_type]
  constructor
  · intro hS a
    rw [flat (fun i j => Fr i j ^ 2)] at hS
    rw [flat (fun i j => (Fm i j - calc_alpha Fm Fr * Fr i j) ^ 2),
      flat (fun i j => (Fm i j - a * Fr i j) ^ 2)]
    set α := calc_alpha Fm Fr with hα
    have hT2pos : 0 < ∑ p : ZMod Mv × ZMod Nv, (Fr p.1 p.2) ^ 2 :=
      lt_of_le_of_ne (sum_nonneg fun p _ => sq_nonneg _) (Ne.symm hS)
    have hαval : α = (∑ p : ZMod Mv × ZMod Nv, Fm p.1 p.2 * Fr p.1 p.2)
        / ∑ p : ZMod Mv × ZMod Nv, (Fr p.1 p.2) ^ 2 := by
      rw [hα]
      unfold calc_alpha
      rw [flat (fun i j => Fm i j * Fr i j), flat (fun i j => Fr i j ^ 2)]
    have hαS : α * ∑ p : ZMod Mv × ZMod Nv, (Fr p.1 p.2) ^ 2
        = ∑ p : ZMod Mv × ZMod Nv, Fm p.1 p.2 * Fr p.1 p.2 := by
      rw [hαval]
      exact div_mul_cancel₀ _ hS
    have hpt : ∀ p : ZMod Mv × ZMod Nv,
        (Fm p.1 p.2 - a * Fr p.1 p.2) ^ 2
          = (Fm p.1 p.2 - α * Fr p.1 p.2) ^ 2
            + (2 * (α - a)) * (Fm p.1 p.2 * Fr p.1 p.2)
            + (-((α - a) * (α + a))) * (Fr p.1 p.2) ^ 2 := by
      intro p
      ring
    have hexp : ∑ p : ZMod Mv × ZMod Nv, (Fm p.1 p.2 - a * Fr p.1 p.2) ^ 2
        = (∑ p : ZMod Mv × ZMod Nv, (Fm p.1 p.2 - α * Fr p.1 p.2) ^ 2)
          + (α - a) ^ 2 * ∑ p : ZMod Mv × ZMod Nv, (Fr p.1 p.2) ^ 2 := by
      rw [sum_congr rfl fun p _ => hpt p, sum_add_distrib, sum_add_distrib,
        ← mul_sum, ← mul_sum, ← hαS]
      ring
    rw [hexp]
    have : 0 ≤ (α - a) ^ 2 * ∑ p : ZMod Mv × ZMod Nv, (Fr p.1 p.2) ^ 2 :=
      mul_nonneg (sq_nonneg _) hT2pos.le
    linarith
  · unfold rms_diff
    have hMN : (0 : ℝ) < (Mv : ℝ) * (Nv : ℝ) :=
      mul_pos (Nat.cast_pos.mpr (NeZero.pos Mv)) (Nat.cast_pos.mpr (NeZero.pos Nv))
    constructor
    · intro h
      rw [Real.sqrt_eq_zero'] at h
      have h2 := mul_le_mul_of_nonneg_right h hMN.le
      rw [div_mul_cancel₀ _ hMN.ne', zero_mul] at h2
      have hzero : ∑ i, ∑ j, (F1 i j - F2 i j) ^ 2 = 0 :=
        le_antisymm h2 (sum_nonneg fun i _ => sum_nonneg fun j _ => sq_nonneg _)
      funext i j
      have h3 := (sum_eq_zero_iff_of_nonneg
        (fun i _ => sum_nonneg fun j _ => sq_nonneg (F1 i j - F2 i j))).mp hzero i (mem_univ i)
      have h4 := (sum_eq_zero_iff_of_nonneg
        (fun j _ => sq_nonneg (F1 i j - F2 i j))).mp h3 j (mem_univ j)
      have h5 := (pow_eq_zero_iff two_ne_zero).mp h4
      linarith [h5]
    · intro h
      rw [h]
      simp [Real.sqrt_eq_zero']

/-- Witness for C5 at 1 x 1 matrices of ones. -/
theorem C5_witness :
    ((∑ i, ∑ j, (onesTrace i j) ^ 2) ≠ 0) ∧
    (∀ a : ℝ, ∑ i, ∑ j, (onesTrace i j - calc_alpha onesTrace onesTrace * onesTrace i j) ^ 2
      ≤ ∑ i, ∑ j, (onesTrace i j - a * onesTrace i j) ^ 2) ∧
    (rms_diff onesTrace onesTrace = 0 ↔ onesTrace = onesTrace) := by
  have hS : (∑ i, ∑ j, (onesTrace i j) ^ 2) ≠ 0 := by
    rw [zmodOneSum fun i => ∑ j, (onesTrace i j) ^ 2, zmodOneSum fun j => (onesTrace 0 j) ^ 2]
    norm_num [onesTrace]
  have h := C5_alpha_minimises_and_rms_iff 1 1 onesTrace onesTrace onesTrace onesTrace
  exact ⟨hS, h.1 hS, h.2⟩

/-- C7 (code bug): `normalize_max_one` applied to the all-zero trace
performs no detection at all: it divides `0 / 0` entrywise (NaN in the
floating-point code, the junk value 0 in this real-number model) and the
result's maximum is 0, not 1, contradicting the function's own
documentation; nothing is surfaced as an error. -/
theorem C7_normalize_zero_trace :
    normalize_max_one zeroTrace = zeroTrace ∧
    npamax (normalize_max_one zeroTrace) = 0 := by
  have h1 : normalize_max_one zeroTrace = zeroTrace := by
    funext i j
    unfold normalize_max_one zeroTrace
    simp
  refine ⟨h1, ?_⟩
  rw [h1]
  have h2 : npamax zeroTrace
      = (univ ×ˢ univ : Finset (ZMod 1 × ZMod 1)).sup'
          (⟨(0, 0), by decide⟩ : (univ ×ˢ univ : Finset (ZMod 1 × ZMod 1)).Nonempty)
          (fun _ => (0 : ℝ)) := rfl
  rw [h2, sup'_const]

/-- Entrywise formula for the `makeFROG` (domain 0, no anti-aliasing)
field trace. -/
lemma makeFROGd0_EF_apply (N : ℕ) [NeZero N] (Pt : ZMod N → ℂ) (k j : ZMod N) :
    (makeFROGd0 Pt 0).2 k j
      = ∑ n, ZMod.stdAddChar (-(n * (k - ((ceilHalf N - 1 : ℤ) : ZMod N))))
          * (Pt n * Pt ((-1 - j - ((((N / 2 : ℕ) : ℤ)) : ZMod N)) + n)) := by
  have h0 : (makeFROGd0 Pt 0).2 k j
      = ZMod.dft (fun n => Pt n * Pt ((-1 - j - ((((N / 2 : ℕ) : ℤ)) : ZMod N)) + n))
          (k - ((ceilHalf N - 1 : ℤ) : ZMod N)) := rfl
  rw [h0, ZMod.dft_apply]
  simp only [smul_eq_mul]

/-- The `makeFROG` field trace of a cyclically shifted field differs from
that of the unshifted field only by a unit-modulus phase in each entry. -/
lemma makeFROGd0_EF_roll (N : ℕ) [NeZero N] (Pt : ZMod N → ℂ) (m : ℤ) (k j : ZMod N) :
    (makeFROGd0 (npRoll Pt m) 0).2 k j
      = ZMod.stdAddChar (-((m : ZMod N) * (k - ((ceilHalf N - 1 : ℤ) : ZMod N))))
        * (makeFROGd0 Pt 0).2 k j := by
  rw [makeFROGd0_EF_apply, makeFROGd0_EF_apply, mul_sum]
  set k' : ZMod N := k - ((ceilHalf N - 1 : ℤ) : ZMod N) with hk'
  set t : ZMod N := -1 - j - ((((N / 2 : ℕ) : ℤ)) : ZMod N) with ht
  refine Fintype.sum_equiv (Equiv.subRight ((m : ZMod N))) _ _ ?_
  intro x
  simp only [Equiv.subRight_apply, npRoll]
  have h1 : -(x * k') = -((m : ZMod N) * k') + -((x - (m : ZMod N)) * k') := by
    ring
  have h3 : t + x - (m : ZMod N) = t + (x - (m : ZMod N)) := by
    ring
  rw [h1, AddChar.map_add_eq_mul, h3]
  ring

lemma frogTraceD0_roll (N : ℕ) [NeZero N] (Pt : ZMod N → ℂ) (m : ℤ) :
    frogTraceD0 (npRoll Pt m) = frogTraceD0 Pt := by
  funext k j
  unfold frogTraceD0
  rw [makeFROGd0_fst, makeFROGd0_fst, makeFROGd0_EF_roll, map_mul, abs_stdAddChar, one_mul]

/-- C8 (confirmed): cyclically shifting the pulse field, as the recentring
step does, changes neither the reconstructed trace produced by `makeFROG`
(with the solver's configured method: domain 0, no anti-aliasing) nor the
FROG error `rms_diff(Fm, alpha*Fr)` computed from it. -/
theorem C8_recenter_invariant (N : ℕ) [NeZero N] (Fm : Matrix (ZMod N) (ZMod N) ℝ)
    (Pt : ZMod N → ℂ) (m : ℤ) :
    frogTraceD0 (npRoll Pt m) = frogTraceD0 Pt ∧
    frogErrD0 Fm (npRoll Pt m) = frogErrD0 Fm Pt := by
  have h := frogTraceD0_roll N Pt m
  refine ⟨h, ?_⟩
  unfold frogErrD0
  rw [h]

/-- Witness for C8 at `N = 1`, unit field and trace, shift 1. -/
theorem C8_recenter_invariant_witness :
    frogTraceD0 (npRoll (fun _ : ZMod 1 => (1 : ℂ)) 1)
      = frogTraceD0 (fun _ : ZMod 1 => (1 : ℂ)) ∧
    frogErrD0 onesTrace (npRoll (fun _ : ZMod 1 => (1 : ℂ)) 1)
      = frogErrD0 onesTrace (fun _ : ZMod 1 => (1 : ℂ)) :=
  C8_recenter_invariant 1 onesTrace (fun _ => 1) 1

/-- C6 (confirmed): with `max_iter = 0` the `while G > GTol and
iteration < max_iter` loop never runs: the returned field is still the
seed, the iteration count is 0, and (the error being above tolerance) the
run ends in MAX_ITER_REACHED. -/
theorem C6_maxIter_zero (N : ℕ) [NeZero N] (Fm : Matrix (ZMod N) (ZMod N) ℝ)
    (seed : ZMod N → ℂ) (GTol : ℝ)
    (h : GTol < (initGPState (normalize_max_one Fm) seed).G) :
    (retrievePhase Fm seed GTol 0).Pt = seed ∧
    (retrievePhase Fm seed GTol 0).iter = 0 ∧
    gpStatus (retrievePhase Fm seed GTol 0) GTol = .maxIterReached := by
  have hr : retrievePhase Fm seed GTol 0 = initGPState (normalize_max_one Fm) seed := rfl
  refine ⟨by rw [hr]; rfl, by rw [hr]; rfl, ?_⟩
  rw [hr]
  unfold gpStatus
  rw [if_neg (not_le.mpr h)]

/-- Witness for C6 at `N = 1`, `Fm = (4)`, `seed = (1)`, `GTol = -1`. -/
theorem C6_maxIter_zero_witness :
    ((-1 : ℝ) < (initGPState (normalize_max_one cexFm1) (fun _ => 1)).G) ∧
    ((retrievePhase cexFm1 (fun _ => 1) (-1) 0).Pt = (fun _ => 1) ∧
      (retrievePhase cexFm1 (fun _ => 1) (-1) 0).iter = 0 ∧
      gpStatus (retrievePhase cexFm1 (fun _ => 1) (-1) 0) (-1) = .maxIterReached) := by
  have hG : (-1 : ℝ) < (initGPState (normalize_max_one cexFm1) (fun _ => (1 : ℂ))).G := by
    have h0 : (0 : ℝ) ≤ (initGPState (normalize_max_one cexFm1) (fun _ => (1 : ℂ))).G :=
      Real.sqrt_nonneg _
    linarith
  exact ⟨hG, C6_maxIter_zero 1 cexFm1 (fun _ => 1) (-1) hG⟩

/-- C3 (amended): in each GP iteration, after the data-consistency update
`EFr := EFr * sqrt(Fm/Fr)` (quotient taken as 0 where `Fr = 0`), the
resulting matrix has amplitude `sqrt(Fm[i,j] / alpha)` — not
`sqrt(Fm[i,j])` — at every entry where `Fr[i,j]` is nonzero (because the
`Fr` in the update has already been rescaled by
`alpha = calc_alpha(Fm, |EFr|^2)` at lines 735/821), amplitude 0 where
`Fr[i,j] = 0`, and the phase of every nonzero entry of the result is
unchanged. -/
theorem C3_projection (N : ℕ) [NeZero N] (Fm : Matrix (ZMod N) (ZMod N) ℝ)
    (Pt : ZMod N → ℂ) (hFm : ∀ i j, 0 ≤ Fm i j) (i j : ZMod N) :
    (loopFr Fm Pt i j ≠ 0 →
      Complex.abs (projectData Fm (loopFr Fm Pt) (makeFROGd0 Pt 0).2 i j)
        = Real.sqrt (Fm i j / calc_alpha Fm (frogTraceD0 Pt))) ∧
    (loopFr Fm Pt i j = 0 →
      projectData Fm (loopFr Fm Pt) (makeFROGd0 Pt 0).2 i j = 0) ∧
    (projectData Fm (loopFr Fm Pt) (makeFROGd0 Pt 0).2 i j ≠ 0 →
      ∃ r : ℝ, 0 < r ∧ projectData Fm (loopFr Fm Pt) (makeFROGd0 Pt 0).2 i j
        = (r : ℝ) * (makeFROGd0 Pt 0).2 i j) := by
  set F := frogTraceD0 Pt with hF
  set α := calc_alpha Fm F with hαdef
  have hFr : loopFr Fm Pt i j = α * F i j := rfl
  have hFnn : ∀ i' j', 0 ≤ F i' j' := by
    intro i' j'
    rw [hF]
    unfold frogTraceD0
    rw [makeFROGd0_fst]
    positivity
  have hα0 : 0 ≤ α := by
    rw [hαdef]
    unfold calc_alpha
    apply div_nonneg
    · exact sum_nonneg fun a _ => sum_nonneg fun b _ => mul_nonneg (hFm a b) (hFnn a b)
    · exact sum_nonneg fun a _ => sum_nonneg fun b _ => sq_nonneg _
  have hproj : projectData Fm (loopFr Fm Pt) (makeFROGd0 Pt 0).2 i j
      = (makeFROGd0 Pt 0).2 i j
        * ((Real.sqrt (if loopFr Fm Pt i j = 0 then 0
            else Fm i j / loopFr Fm Pt i j) : ℝ) : ℂ) := rfl
  refine ⟨?_, ?_, ?_⟩
  · intro hne
    have hα : α ≠ 0 := fun h0 => hne (by rw [hFr, h0, zero_mul])
    have hFij : F i j ≠ 0 := fun h0 => hne (by rw [hFr, h0, mul_zero])
    have hb : F i j = Complex.abs ((makeFROGd0 Pt 0).2 i j) ^ 2 := by
      rw [hF]
      unfold frogTraceD0
      rw [makeFROGd0_fst]
    set b := Complex.abs ((makeFROGd0 Pt 0).2 i j) with hbdef
    have hbpos : 0 < b := by
      rcases (Complex.abs.nonneg ((makeFROGd0 Pt 0).2 i j)).lt_or_eq with hlt | heq
      · exact hlt
      · exact absurd (by rw [hb, show b = 0 from heq.symm]; norm_num) hFij
    rw [hproj, if_neg hne, map_mul, Complex.abs_ofReal,
      abs_eq_self.mpr (Real.sqrt_nonneg _), hFr, hb]
    have hsplit : Fm i j / (α * b ^ 2) = (Fm i j / α) / b ^ 2 := by
      rw [div_div]
    rw [hsplit, Real.sqrt_div (div_nonneg (hFm i j) hα0), Real.sqrt_sq hbpos.le]
    rw [mul_comm, div_mul_cancel₀ _ hbpos.ne']
  · intro h0
    rw [hproj, if_pos h0]
    simp
  · intro hne
    rw [hproj] at hne ⊢
    refine ⟨Real.sqrt (if loopFr Fm Pt i j = 0 then 0 else Fm i j / loopFr Fm Pt i j),
      ?_, mul_comm _ _⟩
    rcases (Real.sqrt_nonneg (if loopFr Fm Pt i j = 0 then 0
        else Fm i j / loopFr Fm Pt i j)).lt_or_eq with hlt | heq
    · exact hlt
    · exact absurd (by rw [← heq]; simp) hne

/-- Witness for C3 at `N = 1`, `Fm = (1)`, `Pt = (1)`. -/
theorem C3_projection_witness :
    (∀ i j : ZMod 1, 0 ≤ onesTrace i j) ∧
    ((loopFr onesTrace (fun _ : ZMod 1 => (1 : ℂ)) 0 0 ≠ 0 →
      Complex.abs (projectData onesTrace (loopFr onesTrace (fun _ : ZMod 1 => (1 : ℂ)))
          (makeFROGd0 (fun _ : ZMod 1 => (1 : ℂ)) 0).2 0 0)
        = Real.sqrt (onesTrace 0 0 / calc_alpha onesTrace (frogTraceD0 (fun _ : ZMod 1 => (1 : ℂ))))) ∧
    (loopFr onesTrace (fun _ : ZMod 1 => (1 : ℂ)) 0 0 = 0 →
      projectData onesTrace (loopFr onesTrace (fun _ : ZMod 1 => (1 : ℂ)))
          (makeFROGd0 (fun _ : ZMod 1 => (1 : ℂ)) 0).2 0 0 = 0) ∧
    (projectData onesTrace (loopFr onesTrace (fun _ : ZMod 1 => (1 : ℂ)))
        (makeFROGd0 (fun _ : ZMod 1 => (1 : ℂ)) 0).2 0 0 ≠ 0 →
      ∃ r : ℝ, 0 < r ∧ projectData onesTrace (loopFr onesTrace (fun _ : ZMod 1 => (1 : ℂ)))
          (makeFROGd0 (fun _ : ZMod 1 => (1 : ℂ)) 0).2 0 0
        = (r : ℝ) * (makeFROGd0 (fun _ : ZMod 1 => (1 : ℂ)) 0).2 0 0)) := by
  have hFm : ∀ i j : ZMod 1, 0 ≤ onesTrace i j := by
    intro i j
    unfold onesTrace
    norm_num
  exact ⟨hFm, C3_projection 1 onesTrace (fun _ : ZMod 1 => (1 : ℂ)) hFm 0 0⟩

/-- Counterexample to C3 as stated: at `N = 1` with measured trace `(4)`
and seed field `(2)`, at the start of the first iteration `Fr = (1)` is
nonzero, yet after the update `|EFr|` is 4, which is neither
`sqrt(Fm_normalised) = 1` nor `sqrt(Fm_raw) = 2` — because `Fr` was
rescaled by `alpha = 1/16` before the update. -/
theorem C3_counterexample :
    (initGPState (normalize_max_one cexFm1) cexSeed1).Fr 0 0 ≠ 0 ∧
    Complex.abs (projectData (normalize_max_one cexFm1)
        (initGPState (normalize_max_one cexFm1) cexSeed1).Fr
        (initGPState (normalize_max_one cexFm1) cexSeed1).EFr 0 0)
      ≠ Real.sqrt (normalize_max_one cexFm1 0 0) ∧
    Complex.abs (projectData (normalize_max_one cexFm1)
        (initGPState (normalize_max_one cexFm1) cexSeed1).Fr
        (initGPState (normalize_max_one cexFm1) cexSeed1).EFr 0 0)
      ≠ Real.sqrt (cexFm1 0 0) := by
  have hmax : npamax cexFm1 = 4 := by
    have h : npamax cexFm1 = (univ ×ˢ univ : Finset (ZMod 1 × ZMod 1)).sup'
        (⟨(0, 0), by decide⟩ : (univ ×ˢ univ : Finset (ZMod 1 × ZMod 1)).Nonempty)
        (fun _ => (4 : ℝ)) := rfl
    rw [h, sup'_const]
  have hFm' : ∀ i j : ZMod 1, normalize_max_one cexFm1 i j = 1 := by
    intro i j
    unfold normalize_max_one
    rw [hmax]
    norm_num [cexFm1]
  have hchar : ∀ z : ZMod 1, ZMod.stdAddChar z = 1 := by
    intro z
    rw [Subsingleton.elim z 0]
    exact AddChar.map_zero_eq_one _
  have hEF : (makeFROGd0 cexSeed1 0).2 0 0 = 4 := by
    rw [makeFROGd0_EF_apply]
    rw [zmodOneSum]
    rw [hchar]
    norm_num [cexSeed1]
  have hFval : (makeFROGd0 cexSeed1 0).1 0 0 = 16 := by
    rw [makeFROGd0_fst, hEF]
    rw [show ((4 : ℂ)) = ((4 : ℝ) : ℂ) by norm_num, Complex.abs_ofReal]
    norm_num
  have halpha : calc_alpha (normalize_max_one cexFm1) (makeFROGd0 cexSeed1 0).1 = 1 / 16 := by
    unfold calc_alpha
    rw [zmodOneSum (fun i => ∑ j, normalize_max_one cexFm1 i j * (makeFROGd0 cexSeed1 0).1 i j),
      zmodOneSum (fun j => normalize_max_one cexFm1 0 j * (makeFROGd0 cexSeed1 0).1 0 j),
      zmodOneSum (fun i => ∑ j, ((makeFROGd0 cexSeed1 0).1 i j) ^ 2),
      zmodOneSum (fun j => ((makeFROGd0 cexSeed1 0).1 0 j) ^ 2)]
    rw [hFm' 0 0, hFval]
    norm_num
  have hFr : (initGPState (normalize_max_one cexFm1) cexSeed1).Fr 0 0
      = calc_alpha (normalize_max_one cexFm1) (makeFROGd0 cexSeed1 0).1
        * (makeFROGd0 cexSeed1 0).1 0 0 := rfl
  have hFr1 : (initGPState (normalize_max_one cexFm1) cexSeed1).Fr 0 0 = 1 := by
    rw [hFr, halpha, hFval]
    norm_num
  have hPD : projectData (normalize_max_one cexFm1)
      (initGPState (normalize_max_one cexFm1) cexSeed1).Fr
      (initGPState (normalize_max_one cexFm1) cexSeed1).EFr 0 0
      = (makeFROGd0 cexSeed1 0).2 0 0
        * ((Real.sqrt (if (initGPState (normalize_max_one cexFm1) cexSeed1).Fr 0 0 = 0 then 0
            else normalize_max_one cexFm1 0 0
              / (initGPState (normalize_max_one cexFm1) cexSeed1).Fr 0 0) : ℝ) : ℂ) := rfl
  have habs : Complex.abs (projectData (normalize_max_one cexFm1)
      (initGPState (normalize_max_one cexFm1) cexSeed1).Fr
      (initGPState (normalize_max_one cexFm1) cexSeed1).EFr 0 0) = 4 := by
    rw [hPD, hFr1, if_neg one_ne_zero, hFm' 0 0, hEF]
    rw [show (1 : ℝ) / 1 = 1 by norm_num, Real.sqrt_one]
    rw [show ((1 : ℝ) : ℂ) = 1 by norm_num, mul_one]
    rw [show ((4 : ℂ)) = ((4 : ℝ) : ℂ) by norm_num, Complex.abs_ofReal]
    norm_num
  refine ⟨by rw [hFr1]; norm_num, ?_, ?_⟩
  · rw [habs, hFm' 0 0, Real.sqrt_one]
    norm_num
  · rw [habs, show cexFm1 0 0 = (4 : ℝ) from rfl,
      show (4 : ℝ) = 2 ^ 2 by norm_num, Real.sqrt_sq (by norm_num : (0:ℝ) ≤ 2)]
    norm_num

lemma normalizeVec_norm_one (N : ℕ) [NeZero N] (w : ZMod N → ℂ) (h : w ≠ 0) :
    npnorm (normalizeVec w) = 1 := by
  have hpos := npnorm_pos w h
  set s := npnorm w with hs
  show Real.sqrt (∑ i, Complex.abs (w i / (s : ℝ)) ^ 2) = 1
  have hterm : ∀ i, Complex.abs (w i / (s : ℝ)) ^ 2 = Complex.abs (w i) ^ 2 / s ^ 2 := by
    intro i
    rw [map_div₀, Complex.abs_ofReal, abs_eq_self.mpr hpos.le, div_pow]
  rw [sum_congr rfl fun i _ => hterm i, ← sum_div,
    Real.sqrt_div (sum_nonneg fun i _ => sq_nonneg _), Real.sqrt_sq hpos.le]
  rw [show Real.sqrt (∑ i, Complex.abs (w i) ^ 2) = s from rfl]
  exact div_self hpos.ne'

/-- C9 (amended): every field that `guessPulse` actually returns is of the
form `v / np.linalg.norm(v)` for the intermediate estimate `v` (power or
singular-vector method, either domain), and such a vector has Euclidean
norm exactly 1 whenever `v` is nonzero.  When `v = 0` (e.g. `EF = 0`) the
returned vector is `0/0` — NaN in numpy, the zero vector in this model —
and its norm is not 1 (see the counterexample). -/
theorem C9_unit_norm (N : ℕ) [NeZero N]
    (svdU : Matrix (ZMod N) (ZMod N) ℂ → ZMod N → ℂ) :
    (∀ w : ZMod N → ℂ, w ≠ 0 → npnorm (normalizeVec w) = 1) ∧
    (∀ (EF : Matrix (ZMod N) (ZMod N) ℂ) (lastPt : ZMod N → ℂ) (d a p : ℕ)
      (res : ZMod N → ℂ), guessPulse svdU EF lastPt d a p = .val res →
        ∃ w, res = normalizeVec w) := by
  refine ⟨fun w h => normalizeVec_norm_one N w h, ?_⟩
  intro EF lastPt d a p res h
  unfold guessPulse at h
  by_cases hd0 : d = 0
  · rw [if_pos hd0] at h
    injection h with h'
    exact ⟨_, h'.symm⟩
  · rw [if_neg hd0] at h
    by_cases hd1 : d = 1
    · rw [if_pos hd1] at h
      by_cases ha : a ≠ 0
      · rw [if_pos ha] at h
        rw [show pyRange 2 ((npFloorF ((N : ℝ) / 2)).add (.int 1))
            = PyRet.exn .typeError from rfl] at h
        cases h
      · rw [if_neg ha] at h
        injection h with h'
        exact ⟨_, h'.symm⟩
    · rw [if_neg hd1] at h
      cases h

/-- Witness for C9: a nonzero length-1 vector normalises to unit norm. -/
theorem C9_unit_norm_witness :
    ((fun _ : ZMod 1 => (2 : ℂ)) ≠ 0) ∧
    npnorm (normalizeVec (fun _ : ZMod 1 => (2 : ℂ))) = 1 := by
  have hne : (fun _ : ZMod 1 => (2 : ℂ)) ≠ 0 := by
    intro h
    have h0 := congrFun h 0
    norm_num at h0
  exact ⟨hne, (C9_unit_norm 1 (fun _ _ => 0)).1 _ hne⟩

lemma guessPulseD0_zero (N : ℕ) [NeZero N] (lastPt : ZMod N → ℂ)
    (svdU : Matrix (ZMod N) (ZMod N) ℂ → ZMod N → ℂ) :
    guessPulseD0 (0 : Matrix (ZMod N) (ZMod N) ℂ) lastPt 0 0 svdU = fun _ => 0 := by
  have h2 : ifftCols (0 : Matrix (ZMod N) (ZMod N) ℂ) = 0 := by
    funext i j
    show ZMod.dft.symm (0 : ZMod N → ℂ) i = (0 : Matrix (ZMod N) (ZMod N) ℂ) i j
    rw [map_zero]
    rfl
  have h0 : rowRollPos (ifftshiftCols (fliplr (ifftCols
      (rollRows (0 : Matrix (ZMod N) (ZMod N) ℂ) (-(ceilHalf N - 1)))))) = 0 := by
    have h1 : rollRows (0 : Matrix (ZMod N) (ZMod N) ℂ) (-(ceilHalf N - 1)) = 0 := rfl
    rw [h1, h2]
    rfl
  have hdef : guessPulseD0 (0 : Matrix (ZMod N) (ZMod N) ℂ) lastPt 0 0 svdU
      = normalizeVec ((rowRollPos (ifftshiftCols (fliplr (ifftCols
          (rollRows (0 : Matrix (ZMod N) (ZMod N) ℂ) (-(ceilHalf N - 1))))))).mulVec
        ((rowRollPos (ifftshiftCols (fliplr (ifftCols
          (rollRows (0 : Matrix (ZMod N) (ZMod N) ℂ)
            (-(ceilHalf N - 1))))))).conjTranspose.mulVec lastPt)) := rfl
  rw [hdef, h0, Matrix.conjTranspose_zero, Matrix.zero_mulVec]
  funext i
  unfold normalizeVec
  simp

/-- Counterexample to C9 as stated: on the zero matrix (domain 0, power
method) `guessPulse` returns, and the returned vector is the zero vector
(NaN in floating point), whose Euclidean norm is 0, not 1. -/
theorem C9_counterexample :
    guessPulse (fun _ _ => 0) (0 : Matrix (ZMod 1) (ZMod 1) ℂ) (fun _ => 1) 0 0 0
      = .val (fun _ => 0) ∧
    npnorm (fun _ : ZMod 1 => (0 : ℂ)) ≠ 1 := by
  constructor
  · show PyRet.val (guessPulseD0 (0 : Matrix (ZMod 1) (ZMod 1) ℂ)
        (fun _ => 1) 0 0 (fun _ _ => 0)) = _
    rw [guessPulseD0_zero]
  · unfold npnorm
    rw [zmodOneSum (fun i => Complex.abs ((fun _ : ZMod 1 => (0 : ℂ)) i) ^ 2)]
    simp

/-- The shortcut branch of `prepFROG` (default orientation `flip = 2`):
when the image is already `N x N` and the sampling identity holds exactly,
the stored trace is the low-pass-filtered, background-subtracted image
(rebinning alone is skipped) and the effective time-step is the input
delay-step. -/
lemma prepFROG_shortcut_flip2 (Nsz : ℕ) [NeZero Nsz] (ccddt ccddv : ℝ)
    (img : Matrix (ZMod Nsz) (ZMod Nsz) ℝ) (h : ccddt * ccddv = 1 / (Nsz : ℝ)) :
    prepFROG Nsz ccddt ccddv img 2
      = (backgroundSubtract (lowpassFilter (flipud img)), ccddt) := by
  unfold prepFROG
  rw [if_neg (by norm_num : ¬(2 : ℕ) = 1), if_neg (by norm_num : ¬(2 : ℕ) = 3),
    if_pos rfl]
  unfold prepFROGcore
  rw [dif_pos ⟨rfl, rfl, h⟩]
  rfl

/-- C4 (amended): for every input image already of shape `N x N` with
`ccddt * ccddv = 1/N` exactly, `prepFROG` skips only the rebinning step:
it stores the low-pass-filtered and background-subtracted image — not the
raw input — in `Fm`, and sets the effective time-step to the input
delay-step `ccddt`.  (The claim's assertion that the filter and background
subtraction are also skipped is false; see the counterexample.) -/
theorem C4_prep_shortcut (Nsz : ℕ) [NeZero Nsz] (ccddt ccddv : ℝ)
    (img : Matrix (ZMod Nsz) (ZMod Nsz) ℝ) (h : ccddt * ccddv = 1 / (Nsz : ℝ)) :
    prepFROG Nsz ccddt ccddv img 2
      = (backgroundSubtract (lowpassFilter (flipud img)), ccddt) :=
  prepFROG_shortcut_flip2 Nsz ccddt ccddv img h

/-- Witness for C4 at `N = 1`, unit calibration steps. -/
theorem C4_prep_shortcut_witness :
    ((1 : ℝ) * 1 = 1 / ((1 : ℕ) : ℝ)) ∧
    prepFROG 1 1 1 ceximg1 2
      = (backgroundSubtract (lowpassFilter (flipud ceximg1)), 1) := by
  have hco : (1 : ℝ) * 1 = 1 / ((1 : ℕ) : ℝ) := by norm_num
  exact ⟨hco, C4_prep_shortcut 1 1 1 ceximg1 hco⟩

lemma lowpassFilter_ceximg1 : lowpassFilter ceximg1 = fun _ _ => (0 : ℝ) := by
  have htop : tophatfilter 1 1 = fun _ _ => (0 : ℝ) := by
    funext a b
    unfold tophatfilter
    rw [if_neg]
    intro hlt
    have ha : ((a.val : ℝ) + 1 - (1 : ℕ) / 2) ^ 2 + ((b.val : ℝ) + 1 - (1 : ℕ) / 2) ^ 2
        = 1 / 2 := by
      rw [Subsingleton.elim a 0, Subsingleton.elim b 0]
      norm_num
    rw [ha] at hlt
    have h2 : (3 / 10 : ℝ) ≤ Real.sqrt (1 / 2) := by
      rw [show (3 / 10 : ℝ) = Real.sqrt ((3 / 10) ^ 2) from (Real.sqrt_sq (by norm_num)).symm]
      exact Real.sqrt_le_sqrt (by norm_num)
    have h3 : (max ((1 : ℕ) : ℝ) ((1 : ℕ) : ℝ)) * (3 / 10) = 3 / 10 := by norm_num
    rw [h3] at hlt
    linarith
  funext i j
  show Complex.abs (ifft2 (ifftshift2 (fun a b =>
      ((tophatfilter 1 1 a b : ℝ) : ℂ)
        * fftshift2 (fft2 (fun a' b' => ((ceximg1 a' b' : ℝ) : ℂ))) a b)) i j) = 0
  simp only [htop, Complex.ofReal_zero, zero_mul]
  have hshift : ifftshift2 (fun _ _ => (0 : ℂ) : Matrix (ZMod 1) (ZMod 1) ℂ)
      = fun _ _ => 0 := rfl
  rw [hshift]
  have hz1 : ifftRows (fun _ _ => (0 : ℂ) : Matrix (ZMod 1) (ZMod 1) ℂ) = fun _ _ => 0 := by
    funext a b
    show ZMod.dft.symm (0 : ZMod 1 → ℂ) b = 0
    rw [map_zero]
    rfl
  have hz2 : ifftCols (fun _ _ => (0 : ℂ) : Matrix (ZMod 1) (ZMod 1) ℂ) = fun _ _ => 0 := by
    funext a b
    show ZMod.dft.symm (0 : ZMod 1 → ℂ) a = 0
    rw [map_zero]
    rfl
  unfold ifft2
  rw [hz1, hz2]
  simp

lemma backgroundSubtract_zero1 :
    backgroundSubtract (fun _ _ => (0 : ℝ) : Matrix (ZMod 1) (ZMod 1) ℝ) = fun _ _ => 0 := by
  funext i j
  show max ((0 : ℝ) - npamin (fun a b : ZMod 1 =>
      ∑ ii ∈ Finset.range 8, ∑ jj ∈ Finset.range 8, (0 : ℝ)) / (8 * 8)) 0 = 0
  have hblocks : (fun a b : ZMod 1 =>
      ∑ ii ∈ Finset.range 8, ∑ jj ∈ Finset.range 8, (0 : ℝ)) = fun _ _ => (0 : ℝ) := by
    funext a b
    simp
  rw [hblocks]
  have hmin : npamin (fun _ _ => (0 : ℝ) : Matrix (ZMod 1) (ZMod 1) ℝ) = 0 := by
    have h : npamin (fun _ _ => (0 : ℝ) : Matrix (ZMod 1) (ZMod 1) ℝ)
        = (univ ×ˢ univ : Finset (ZMod 1 × ZMod 1)).inf'
            (⟨(0, 0), by decide⟩ : (univ ×ˢ univ : Finset (ZMod 1 × ZMod 1)).Nonempty)
            (fun _ => (0 : ℝ)) := rfl
    rw [h, inf'_const]
  rw [hmin]
  norm_num

/-- Counterexample to C4 as stated: at `N = 1` with the image `(5)` and
calibration satisfying the sampling identity, the stored trace entry is 0,
not 5 — the low-pass filter (whose 1 x 1 top-hat mask is empty, since
`sqrt(1/2) >= 0.3`) and background subtraction are applied even on the
shortcut path, so the image is not passed through unchanged. -/
theorem C4_counterexample :
    ((1 : ℝ) * 1 = 1 / ((1 : ℕ) : ℝ)) ∧
    (prepFROG 1 1 1 ceximg1 2).1 0 0 = 0 ∧ ceximg1 0 0 = 5 ∧
    (prepFROG 1 1 1 ceximg1 2).1 ≠ ceximg1 := by
  have hco : (1 : ℝ) * 1 = 1 / ((1 : ℕ) : ℝ) := by norm_num
  have hfl : flipud ceximg1 = ceximg1 := rfl
  have hval : (prepFROG 1 1 1 ceximg1 2).1 0 0 = 0 := by
    rw [prepFROG_shortcut_flip2 1 1 1 ceximg1 hco]
    show backgroundSubtract (lowpassFilter (flipud ceximg1)) 0 0 = 0
    rw [hfl, lowpassFilter_ceximg1, backgroundSubtract_zero1]
  refine ⟨hco, hval, rfl, ?_⟩
  intro heq
  have h5 := congrFun (congrFun heq 0) 0
  rw [hval] at h5
  norm_num [ceximg1] at h5

end

end Frog
